import Mathlib

/-!
# Verification of the HBOS detector (pyod/models/hbos.py)

A shallow embedding of the histogram-based outlier detector.  Sample values,
bin edges and densities are rationals (the source works with floating-point
reals; we embed the arithmetic exactly), log-density sub-scores are reals.

The per-feature data `bin_edges_[:, i]` / `hist_[:, i]` of the source is
embedded as a `FeatureHist`; a fitted model is one `FeatureHist` per feature.
-/

namespace HBOS

/-- Column `i` of the fitted arrays: `edges` is `bin_edges_[:, i]`
(length `n_bins + 1`), `dens` is `hist_[:, i]` (length `n_bins`). -/
structure FeatureHist where
  edges : List ℚ
  dens : List ℚ
deriving DecidableEq

/-- `np.digitize(v, bins, right=True)` for nondecreasing `bins`: the index `k`
with `bins[k-1] < v <= bins[k]`, i.e. the number of edges strictly below `v`
(0 when `v <= bins[0]`, `bins.length` when `v > bins[-1]`). -/
def digitizeRight (bins : List ℚ) (v : ℚ) : ℕ :=
  bins.countP (fun e => decide (e < v))

/-- `out_score_i = np.log2(hist[:, i] + alpha)`. -/
noncomputable def outScoreList (dens : List ℚ) (alpha : ℚ) : List ℝ :=
  dens.map (fun h => Real.logb 2 ((h + alpha : ℚ) : ℝ))

/-- `np.min` over a (nonempty in practice) one-dimensional array. -/
noncomputable def npMin : List ℝ → ℝ
  | [] => 0
  | x :: xs => xs.foldl min x

/-- `np.max` over a (nonempty in practice) one-dimensional array. -/
noncomputable def npMax : List ℝ → ℝ
  | [] => 0
  | x :: xs => xs.foldl max x

/-- The per-sample, per-feature body of `_calculate_outlier_scores`: entry
`outlier_scores[j, i]` for a sample value `v = X[j, i]` against feature
histogram `fh`.  `fh.edges.getD n_bins 0` is `bin_edges[-1, i]` and
`fh.edges.getD (n_bins - 1) 0` is `bin_edges[-2, i]` for the fitted shape
`n_bins + 1`. -/
noncomputable def featureScore (fh : FeatureHist) (n_bins : ℕ) (alpha tol : ℚ)
    (v : ℚ) : ℝ :=
  let os := outScoreList fh.dens alpha
  let idx := digitizeRight fh.edges v
  if idx = 0 then
    let dist := fh.edges.getD 0 0 - v
    let bin_width := fh.edges.getD 1 0 - fh.edges.getD 0 0
    if dist ≤ bin_width * tol then os.getD 0 0 else npMin os
  else if idx = n_bins + 1 then
    let dist := v - fh.edges.getD n_bins 0
    let bin_width := fh.edges.getD n_bins 0 - fh.edges.getD (n_bins - 1) 0
    if dist ≤ bin_width * tol then os.getD (n_bins - 1) 0 else npMin os
  else os.getD (idx - 1) 0

/-- `_calculate_outlier_scores(X, bin_edges, hist, n_bins, alpha, tol)`:
the `(n_samples, n_features)` matrix with entry `(j, i)` given by
`featureScore` of feature `i` at `X[j, i]`.  The source fills the matrix
feature-first; the entries are independent, so we build it row by row. -/
noncomputable def calculate_outlier_scores (X : List (List ℚ))
    (model : List FeatureHist) (n_bins : ℕ) (alpha tol : ℚ) : List (List ℝ) :=
  X.map (fun row => (row.zip model).map
    (fun p => featureScore p.2 n_bins alpha tol p.1))

/-- Modelled from the spec: `invert_order` (defined in
`pyod/utils/utility.py`, which is not part of the provided sources) flips the
orientation of a score vector once, at the end of the pipeline, so that
higher means more anomalous; the spec names negation as the inversion. -/
noncomputable def invert_order (scores : List ℝ) : List ℝ :=
  scores.map (fun x => -x)

/-- `invert_order(np.sum(outlier_scores, axis=1))`: the aggregate decision
scores of `fit` (line 112) and `decision_function` (line 142). -/
noncomputable def decisionScores (n_bins : ℕ) (alpha tol : ℚ)
    (model : List FeatureHist) (X : List (List ℚ)) : List ℝ :=
  invert_order ((calculate_outlier_scores X model n_bins alpha tol).map
    List.sum)

/-- `sklearn.utils.check_array` on an all-finite rational matrix: accepts
exactly the nonempty rectangular matrices with at least one column (rationals
are always finite, so the finiteness check never fires). -/
def check_array (X : List (List ℚ)) : Bool :=
  !X.isEmpty
    && X.all (fun r => r.length == (X.headD []).length)
    && !(X.headD []).isEmpty

/-- `HBOS.decision_function`: `check_is_fitted` is witnessed by the `model`
argument, `check_array` validates the matrix, then the kernel and the single
end-of-pipeline inversion run.  No comparison of the input's feature count
with the fitted model's is performed. -/
noncomputable def decision_function (model : List FeatureHist) (n_bins : ℕ)
    (alpha tol : ℚ) (X : List (List ℚ)) : Option (List ℝ) :=
  if check_array X then some (decisionScores n_bins alpha tol model X)
  else none

/-- Modelled from the spec: `check_parameter(p, low, high)` (defined in
`pyod/utils/utility.py`, not part of the provided sources) accepts exactly
the values in the open interval `(low, high)`, per the spec's
`alpha, tol ∈ (0,1)`. -/
def check_parameter (p low high : ℚ) : Bool :=
  decide (low < p ∧ p < high)

/-- The configuration held by a constructed `HBOS` object. -/
structure HBOSConfig where
  n_bins : ℤ
  alpha : ℚ
  tol : ℚ
deriving DecidableEq

/-- `HBOS.__init__(n_bins, alpha, tol)`: stores the three parameters and
validates `alpha` and `tol` with `check_parameter`; `n_bins` is stored
without any validation. -/
def hbos_init (n_bins : ℤ) (alpha tol : ℚ) : Option HBOSConfig :=
  if check_parameter alpha 0 1 && check_parameter tol 0 1 then
    some ⟨n_bins, alpha, tol⟩
  else none

/-- Minimum of a nonempty rational list (`np.min`; junk value 0 on `[]`). -/
def listMin : List ℚ → ℚ
  | [] => 0
  | x :: xs => xs.foldl min x

/-- Maximum of a nonempty rational list (`np.max`; junk value 0 on `[]`). -/
def listMax : List ℚ → ℚ
  | [] => 0
  | x :: xs => xs.foldl max x

/-- The bin index `np.histogram` assigns to a value `v` for first edge `lo`,
bin width `w > 0` and `n_bins` bins: `floor((v - lo) / w)` clamped to the
last bin, so that the last bin is closed on the right and all interior bins
are half-open `[e[k], e[k+1])`. -/
def binIndex (lo w : ℚ) (n_bins : ℕ) (v : ℚ) : ℕ :=
  min (Int.toNat ⌊(v - lo) / w⌋) (n_bins - 1)

/-- The lower end of the histogram range: `min col`, widened by `1/2` when
the observed range is empty (all values identical), as numpy does. -/
def histLo (col : List ℚ) : ℚ :=
  if listMin col = listMax col then listMin col - 1/2 else listMin col

/-- The upper end of the histogram range, symmetrically. -/
def histHi (col : List ℚ) : ℚ :=
  if listMin col = listMax col then listMax col + 1/2 else listMax col

/-- The common bin width `(hi - lo) / n_bins`. -/
def histW (col : List ℚ) (n_bins : ℕ) : ℚ :=
  (histHi col - histLo col) / (n_bins : ℚ)

/-- The `n_bins + 1` equally spaced bin edges (numpy's `linspace`). -/
def histEdges (col : List ℚ) (n_bins : ℕ) : List ℚ :=
  (List.range (n_bins + 1)).map
    (fun (k : ℕ) => histLo col + (k : ℚ) * histW col n_bins)

/-- The per-bin sample counts: values are assigned by `binIndex`, i.e. to
half-open bins `[e[k], e[k+1])` with the last bin closed on the right. -/
def histCounts (col : List ℚ) (n_bins : ℕ) : List ℕ :=
  (List.range n_bins).map
    (fun k => col.countP
      (fun v => decide (binIndex (histLo col) (histW col n_bins) n_bins v = k)))

/-- The normalized densities `count / (n_samples * width)`. -/
def histDens (col : List ℚ) (n_bins : ℕ) : List ℚ :=
  (histCounts col n_bins).map
    (fun (c : ℕ) => (c : ℚ) / ((col.length : ℚ) * histW col n_bins))

/-- `np.histogram(col, bins=n_bins, density=True)` on a one-dimensional
array: `n_bins` equal-width bins spanning `[min col, max col]` (widened to
`[min - 1/2, max + 1/2]` when the range is empty, as numpy does), densities
`count / (n * width)`.  Returns `(hist, edges)`; `none` when numpy raises
(empty input or a non-positive bin count). -/
def np_histogram (col : List ℚ) (n_bins : ℕ) : Option (List ℚ × List ℚ) :=
  if col = [] ∨ n_bins = 0 then none
  else some (histDens col n_bins, histEdges col n_bins)

/-- Column `i` of a rectangular matrix: `X[:, i]`. -/
def getCol (X : List (List ℚ)) (i : ℕ) : List ℚ :=
  X.map (fun r => r.getD i 0)

/-- Collect a list of optional values, failing if any is `none`. -/
def seqOption {α : Type} : List (Option α) → Option (List α)
  | [] => some []
  | none :: _ => none
  | some a :: t => (seqOption t).map (fun l => a :: l)

/-- The histogram-construction loop of `HBOS.fit` (lines 98-100): one
`np.histogram` call per feature column. -/
def buildModel (X : List (List ℚ)) (n_bins : ℕ) : Option (List FeatureHist) :=
  seqOption ((List.range (X.headD []).length).map
    (fun i => (np_histogram (getCol X i) n_bins).map
      (fun p => FeatureHist.mk p.2 p.1)))

/-- `np.diff` of a one-dimensional array. -/
def diffs : List ℚ → List ℚ
  | [] => []
  | [_] => []
  | a :: b :: t => (b - a) :: diffs (b :: t)

/-- `np.sum(hist[:, i] * np.diff(bin_edges[:, i]))`: the integral of the
density histogram of one feature. -/
def integralSum (fh : FeatureHist) : ℚ :=
  ((fh.dens.zip (diffs fh.edges)).map (fun p => p.1 * p.2)).sum

/-- `np.isclose(a, b, rtol, atol)`: `|a - b| <= atol + rtol * |b|`. -/
def np_isclose (rtol atol a b : ℚ) : Bool :=
  decide (|a - b| ≤ atol + rtol * |b|)

/-- `HBOS.fit` (lines 90-114): validate the matrix, build the per-feature
histograms, assert `np.isclose(1, sum(hist * diff(edges)), atol=0.1)` for
every feature (numpy's default `rtol = 1e-5`), then score the training data
and store the inverted aggregate as `decision_scores_`. -/
noncomputable def fit (n_bins : ℕ) (alpha tol : ℚ) (X : List (List ℚ)) :
    Option (List FeatureHist × List ℝ) :=
  if check_array X then
    match buildModel X n_bins with
    | none => none
    | some model =>
      if model.all (fun fh => np_isclose (1/100000) (1/10) 1 (integralSum fh))
      then some (model, decisionScores n_bins alpha tol model X)
      else none
  else none

/-- `v` lies strictly inside bin `k` of `fh` and bin `k` has maximal density
among the `n_bins` bins of that feature. -/
def insideTopBin (fh : FeatureHist) (n_bins : ℕ) (v : ℚ) : Prop :=
  ∃ k, k < n_bins ∧ fh.edges.getD k 0 < v ∧ v < fh.edges.getD (k + 1) 0 ∧
    ∀ j, j < n_bins → fh.dens.getD j 0 ≤ fh.dens.getD k 0

/-- `v` falls outside the training range of `fh` by more than `tol` times the
adjacent edge bin's width (on either side). -/
def farOutside (fh : FeatureHist) (n_bins : ℕ) (tol : ℚ) (v : ℚ) : Prop :=
  (v < fh.edges.getD 0 0 ∧
    (fh.edges.getD 1 0 - fh.edges.getD 0 0) * tol < fh.edges.getD 0 0 - v)
  ∨ (fh.edges.getD n_bins 0 < v ∧
    (fh.edges.getD n_bins 0 - fh.edges.getD (n_bins - 1) 0) * tol
      < v - fh.edges.getD n_bins 0)

/-! ## List index and monotonicity helpers -/

lemma getD_map_logb (dens : List ℚ) (alpha : ℚ) {k : ℕ}
    (hk : k < dens.length) :
    (outScoreList dens alpha).getD k 0
      = Real.logb 2 ((dens.getD k 0 + alpha : ℚ) : ℝ) := by
  unfold outScoreList
  rw [List.getD_eq_getElem _ _ (by simpa using hk), List.getElem_map,
    List.getD_eq_getElem _ _ hk]

lemma chain_le_getD {l : List ℚ} (h : l.Chain' (· ≤ ·)) {i j : ℕ}
    (hij : i ≤ j) (hj : j < l.length) : l.getD i 0 ≤ l.getD j 0 := by
  rcases Nat.eq_or_lt_of_le hij with rfl | hlt
  · exact le_refl _
  · have hp := (List.chain'_iff_pairwise).mp h
    have hi : i < l.length := lt_trans hlt hj
    rw [List.getD_eq_getElem _ _ hi, List.getD_eq_getElem _ _ hj]
    exact List.pairwise_iff_getElem.mp hp i j hi hj hlt

lemma chain_lt_getD {l : List ℚ} (h : l.Chain' (· < ·)) {i j : ℕ}
    (hij : i < j) (hj : j < l.length) : l.getD i 0 < l.getD j 0 := by
  have hp := (List.chain'_iff_pairwise).mp h
  have hi : i < l.length := lt_trans hij hj
  rw [List.getD_eq_getElem _ _ hi, List.getD_eq_getElem _ _ hj]
  exact List.pairwise_iff_getElem.mp hp i j hi hj hij

lemma chain_lt_le {l : List ℚ} (h : l.Chain' (· < ·)) :
    l.Chain' (· ≤ ·) :=
  List.Chain'.imp (fun _ _ hab => le_of_lt hab) h

/-! ## digitize characterizations -/

lemma digitizeRight_le_length (bins : List ℚ) (v : ℚ) :
    digitizeRight bins v ≤ bins.length :=
  List.countP_le_length _

lemma digitizeRight_eq_zero {bins : List ℚ} {v : ℚ}
    (h : ∀ e ∈ bins, v ≤ e) : digitizeRight bins v = 0 := by
  unfold digitizeRight
  rw [List.countP_eq_zero]
  intro e he
  simpa using not_lt.mpr (h e he)

lemma digitizeRight_eq_length {bins : List ℚ} {v : ℚ}
    (h : ∀ e ∈ bins, e < v) : digitizeRight bins v = bins.length := by
  unfold digitizeRight
  rw [List.countP_eq_length]
  intro e he
  simpa using h e he

/-- The count of edges below `v` is `k` when the first `k` edges are below
and the rest are not. -/
lemma digitizeRight_eq_of_split :
    ∀ (bins : List ℚ) (v : ℚ) (k : ℕ), k ≤ bins.length →
    (∀ i, i < k → bins.getD i 0 < v) →
    (∀ i, k ≤ i → i < bins.length → v ≤ bins.getD i 0) →
    digitizeRight bins v = k := by
  intro bins
  induction bins with
  | nil =>
    intro v k hk _ _
    have : k = 0 := by simpa using hk
    subst this
    rfl
  | cons x t ih =>
    intro v k hk h1 h2
    match k with
    | 0 =>
      apply digitizeRight_eq_zero
      intro e he
      rcases List.mem_iff_getElem.mp he with ⟨i, hi, rfl⟩
      have := h2 i (Nat.zero_le i) hi
      rwa [List.getD_eq_getElem _ _ hi] at this
    | k' + 1 =>
      have hx : x < v := by simpa using h1 0 (Nat.succ_pos k')
      have : digitizeRight (x :: t) v = digitizeRight t v + 1 := by
        unfold digitizeRight
        rw [List.countP_cons]
        simp [hx]
      rw [this, ih v k' (by simpa using hk)
        (fun i hi => by simpa using h1 (i + 1) (by omega))
        (fun i hki hi => by simpa using h2 (i + 1) (by omega) (by simpa))]

/-! ## npMin / npMax -/

lemma foldl_min_le_init {α : Type} [LinearOrder α] (xs : List α) :
    ∀ a : α, xs.foldl min a ≤ a := by
  induction xs with
  | nil => intro a; exact le_refl a
  | cons x t ih =>
    intro a
    calc t.foldl min (min a x) ≤ min a x := ih (min a x)
    _ ≤ a := min_le_left a x

lemma foldl_min_le_mem {α : Type} [LinearOrder α] (xs : List α) :
    ∀ a y : α, y ∈ xs → xs.foldl min a ≤ y := by
  induction xs with
  | nil => intro a y hy; cases hy
  | cons x t ih =>
    intro a y hy
    rcases List.mem_cons.mp hy with rfl | hy'
    · calc t.foldl min (min a y) ≤ min a y := foldl_min_le_init t _
      _ ≤ y := min_le_right a y
    · exact ih (min a x) y hy'

lemma npMin_le_of_mem {l : List ℝ} {x : ℝ} (hx : x ∈ l) : npMin l ≤ x := by
  match l, hx with
  | y :: t, hx =>
    rcases List.mem_cons.mp hx with rfl | hx'
    · exact foldl_min_le_init t x
    · exact foldl_min_le_mem t y x hx'

lemma foldl_min_mem {α : Type} [LinearOrder α] (xs : List α) :
    ∀ a : α, xs.foldl min a = a ∨ xs.foldl min a ∈ xs := by
  induction xs with
  | nil => intro a; exact Or.inl rfl
  | cons x t ih =>
    intro a
    simp only [List.foldl_cons]
    rcases ih (min a x) with h | h
    · rcases le_total a x with hax | hxa
      · left; rw [h, min_eq_left hax]
      · right; rw [h, min_eq_right hxa]; exact List.mem_cons_self x t
    · right; exact List.mem_cons_of_mem x h

lemma npMin_mem {l : List ℝ} (h : l ≠ []) : npMin l ∈ l := by
  match l, h with
  | x :: t, _ =>
    rcases foldl_min_mem t x with h' | h'
    · rw [show npMin (x :: t) = t.foldl min x from rfl, h']
      exact List.mem_cons_self x t
    · exact List.mem_cons_of_mem x h'

lemma init_le_foldl_max {α : Type} [LinearOrder α] (xs : List α) :
    ∀ a : α, a ≤ xs.foldl max a := by
  induction xs with
  | nil => intro a; exact le_refl a
  | cons x t ih =>
    intro a
    calc a ≤ max a x := le_max_left a x
    _ ≤ t.foldl max (max a x) := ih (max a x)

lemma mem_le_foldl_max {α : Type} [LinearOrder α] (xs : List α) :
    ∀ a y : α, y ∈ xs → y ≤ xs.foldl max a := by
  induction xs with
  | nil => intro a y hy; cases hy
  | cons x t ih =>
    intro a y hy
    rcases List.mem_cons.mp hy with rfl | hy'
    · calc y ≤ max a y := le_max_right a y
      _ ≤ t.foldl max (max a y) := init_le_foldl_max t _
    · exact ih (max a x) y hy'

lemma le_npMax_of_mem {l : List ℝ} {x : ℝ} (hx : x ∈ l) : x ≤ npMax l := by
  match l, hx with
  | y :: t, hx =>
    rcases List.mem_cons.mp hx with rfl | hx'
    · exact init_le_foldl_max t x
    · exact mem_le_foldl_max t y x hx'

/-! ## featureScore case analysis -/

lemma le_all_of_le_head {l : List ℚ} {v : ℚ} (hmono : l.Chain' (· ≤ ·))
    (hv : v ≤ l.getD 0 0) : ∀ e ∈ l, v ≤ e := by
  intro e he
  rcases List.mem_iff_getElem.mp he with ⟨i, hi, rfl⟩
  have h0 : l.getD 0 0 ≤ l.getD i 0 := chain_le_getD hmono (Nat.zero_le i) hi
  rw [List.getD_eq_getElem _ _ hi] at h0
  exact le_trans hv h0

lemma all_lt_of_last_lt {l : List ℚ} {v : ℚ} (hmono : l.Chain' (· ≤ ·))
    (hv : l.getD (l.length - 1) 0 < v) : ∀ e ∈ l, e < v := by
  intro e he
  rcases List.mem_iff_getElem.mp he with ⟨i, hi, rfl⟩
  have h0 : l.getD i 0 ≤ l.getD (l.length - 1) 0 :=
    chain_le_getD hmono (by omega) (by omega)
  rw [List.getD_eq_getElem _ _ hi] at h0
  exact lt_of_le_of_lt h0 hv

/-- Below the range, within the tolerance slack: the first bin's score. -/
lemma featureScore_below_within {fh : FeatureHist} {n_bins : ℕ}
    {alpha tol v : ℚ}
    (hD : fh.dens.length = n_bins) (hn : 1 ≤ n_bins)
    (hmono : fh.edges.Chain' (· ≤ ·))
    (hv : v ≤ fh.edges.getD 0 0)
    (hcond : fh.edges.getD 0 0 - v
      ≤ (fh.edges.getD 1 0 - fh.edges.getD 0 0) * tol) :
    featureScore fh n_bins alpha tol v
      = Real.logb 2 ((fh.dens.getD 0 0 + alpha : ℚ) : ℝ) := by
  have hdig : digitizeRight fh.edges v = 0 :=
    digitizeRight_eq_zero (le_all_of_le_head hmono hv)
  simp only [featureScore, hdig, if_pos rfl, if_pos hcond]
  exact getD_map_logb fh.dens alpha (by omega)

/-- Below the range, beyond the tolerance slack: the min log-density. -/
lemma featureScore_below_beyond {fh : FeatureHist} {n_bins : ℕ}
    {alpha tol v : ℚ}
    (hmono : fh.edges.Chain' (· ≤ ·))
    (hv : v ≤ fh.edges.getD 0 0)
    (hcond : (fh.edges.getD 1 0 - fh.edges.getD 0 0) * tol
      < fh.edges.getD 0 0 - v) :
    featureScore fh n_bins alpha tol v = npMin (outScoreList fh.dens alpha) := by
  have hdig : digitizeRight fh.edges v = 0 :=
    digitizeRight_eq_zero (le_all_of_le_head hmono hv)
  simp only [featureScore, hdig, if_pos rfl, if_neg (not_le.mpr hcond)]
  simp

/-- Above the range, within the tolerance slack: the last bin's score. -/
lemma featureScore_above_within {fh : FeatureHist} {n_bins : ℕ}
    {alpha tol v : ℚ}
    (hE : fh.edges.length = n_bins + 1) (hD : fh.dens.length = n_bins)
    (hn : 1 ≤ n_bins)
    (hmono : fh.edges.Chain' (· ≤ ·))
    (hv : fh.edges.getD n_bins 0 < v)
    (hcond : v - fh.edges.getD n_bins 0
      ≤ (fh.edges.getD n_bins 0 - fh.edges.getD (n_bins - 1) 0) * tol) :
    featureScore fh n_bins alpha tol v
      = Real.logb 2 ((fh.dens.getD (n_bins - 1) 0 + alpha : ℚ) : ℝ) := by
  have hlast : fh.edges.getD (fh.edges.length - 1) 0 < v := by
    rw [hE]; simpa using hv
  have hdig : digitizeRight fh.edges v = fh.edges.length :=
    digitizeRight_eq_length (all_lt_of_last_lt hmono hlast)
  rw [hE] at hdig
  simp only [featureScore, hdig, if_neg (by omega : ¬ n_bins + 1 = 0),
    if_pos rfl, if_pos hcond]
  exact getD_map_logb fh.dens alpha (by omega)

/-- Above the range, beyond the tolerance slack: the min log-density. -/
lemma featureScore_above_beyond {fh : FeatureHist} {n_bins : ℕ}
    {alpha tol v : ℚ}
    (hE : fh.edges.length = n_bins + 1)
    (hmono : fh.edges.Chain' (· ≤ ·))
    (hv : fh.edges.getD n_bins 0 < v)
    (hcond : (fh.edges.getD n_bins 0 - fh.edges.getD (n_bins - 1) 0) * tol
      < v - fh.edges.getD n_bins 0) :
    featureScore fh n_bins alpha tol v = npMin (outScoreList fh.dens alpha) := by
  have hlast : fh.edges.getD (fh.edges.length - 1) 0 < v := by
    rw [hE]; simpa using hv
  have hdig : digitizeRight fh.edges v = fh.edges.length :=
    digitizeRight_eq_length (all_lt_of_last_lt hmono hlast)
  rw [hE] at hdig
  simp only [featureScore, hdig, if_neg (by omega : ¬ n_bins + 1 = 0),
    if_pos rfl, if_neg (not_le.mpr hcond)]
  simp

/-- In range: a value with `e[k] < v ≤ e[k+1]` scores with bin `k`. -/
lemma featureScore_in_bin {fh : FeatureHist} {n_bins k : ℕ}
    {alpha tol v : ℚ}
    (hE : fh.edges.length = n_bins + 1) (hD : fh.dens.length = n_bins)
    (hk : k < n_bins)
    (hmono : fh.edges.Chain' (· ≤ ·))
    (hv1 : fh.edges.getD k 0 < v) (hv2 : v ≤ fh.edges.getD (k + 1) 0) :
    featureScore fh n_bins alpha tol v
      = Real.logb 2 ((fh.dens.getD k 0 + alpha : ℚ) : ℝ) := by
  have hdig : digitizeRight fh.edges v = k + 1 := by
    apply digitizeRight_eq_of_split fh.edges v (k + 1) (by omega)
    · intro i hi
      exact lt_of_le_of_lt (chain_le_getD hmono (by omega) (by omega)) hv1
    · intro i hki hi
      exact le_trans hv2 (chain_le_getD hmono hki (by omega))
  simp only [featureScore, hdig, if_neg (by omega : ¬ k + 1 = 0),
    if_neg (by omega : ¬ k + 1 = n_bins + 1)]
  simpa using getD_map_logb fh.dens alpha (by omega)

/-! ## Claim C1: out-of-range sub-scores -/

/-- The out-of-range scoring rule for one feature: below the range the first
bin's log-density applies within the tolerance slack and the minimum
log-density beyond it; symmetrically above the range with the last bin. -/
def outOfRangeRule (fh : FeatureHist) (n_bins : ℕ) (alpha tol v : ℚ) : Prop :=
  (v < fh.edges.getD 0 0 →
    (fh.edges.getD 0 0 - v ≤ (fh.edges.getD 1 0 - fh.edges.getD 0 0) * tol →
      featureScore fh n_bins alpha tol v
        = Real.logb 2 ((fh.dens.getD 0 0 + alpha : ℚ) : ℝ)) ∧
    ((fh.edges.getD 1 0 - fh.edges.getD 0 0) * tol < fh.edges.getD 0 0 - v →
      featureScore fh n_bins alpha tol v
        = npMin (outScoreList fh.dens alpha))) ∧
  (fh.edges.getD n_bins 0 < v →
    (v - fh.edges.getD n_bins 0
        ≤ (fh.edges.getD n_bins 0 - fh.edges.getD (n_bins - 1) 0) * tol →
      featureScore fh n_bins alpha tol v
        = Real.logb 2 ((fh.dens.getD (n_bins - 1) 0 + alpha : ℚ) : ℝ)) ∧
    ((fh.edges.getD n_bins 0 - fh.edges.getD (n_bins - 1) 0) * tol
        < v - fh.edges.getD n_bins 0 →
      featureScore fh n_bins alpha tol v
        = npMin (outScoreList fh.dens alpha)))

/-- C1: for a fitted feature histogram (`n_bins + 1` nondecreasing edges,
`n_bins` densities), a sample value outside the training range scores with
the adjacent boundary bin's `log2(h + alpha)` when its distance to the range
is within `tol` times the adjacent bin's width, and with the minimum
per-bin log-density otherwise, on both sides. -/
theorem hbos_out_of_range_subscore (fh : FeatureHist) (n_bins : ℕ)
    (alpha tol v : ℚ)
    (hE : fh.edges.length = n_bins + 1) (hD : fh.dens.length = n_bins)
    (hn : 1 ≤ n_bins) (hmono : fh.edges.Chain' (· ≤ ·)) :
    outOfRangeRule fh n_bins alpha tol v := by
  constructor
  · intro hv
    exact ⟨fun hc => featureScore_below_within hD hn hmono (le_of_lt hv) hc,
      fun hc => featureScore_below_beyond hmono (le_of_lt hv) hc⟩
  · intro hv
    exact ⟨fun hc => featureScore_above_within hE hD hn hmono hv hc,
      fun hc => featureScore_above_beyond hE hmono hv hc⟩

/-- A small concrete fitted feature: edges `[0, 1, 2]`, densities
`[3/4, 1/4]` (two bins, integral `3/4 + 1/4 = 1`). -/
def exFH : FeatureHist := ⟨[0, 1, 2], [3/4, 1/4]⟩

theorem hbos_out_of_range_subscore_witness :
    (exFH.edges.length = 2 + 1 ∧ exFH.dens.length = 2 ∧ 1 ≤ 2 ∧
      exFH.edges.Chain' (· ≤ ·)) ∧
    outOfRangeRule exFH 2 (1/10) (1/2) (-1) :=
  ⟨⟨by simp [exFH], by simp [exFH], by norm_num,
      by norm_num [exFH, List.chain'_cons]⟩,
    hbos_out_of_range_subscore exFH 2 (1/10) (1/2) (-1)
      (by simp [exFH]) (by simp [exFH]) (by norm_num)
      (by norm_num [exFH, List.chain'_cons])⟩

/-! ## Claim C3: training extrema score with the boundary bins -/

/-- C3: for a fitted feature histogram (strictly increasing edges, as
`np.histogram` produces), a sample exactly at the minimum edge scores with
the first bin's `log2(h + alpha)` and a sample exactly at the maximum edge
scores with the last bin's, never the out-of-range fallback. -/
theorem hbos_extremum_scores_boundary_bin (fh : FeatureHist) (n_bins : ℕ)
    (alpha tol : ℚ)
    (hE : fh.edges.length = n_bins + 1) (hD : fh.dens.length = n_bins)
    (hn : 1 ≤ n_bins) (hmono : fh.edges.Chain' (· < ·)) (htol : 0 ≤ tol) :
    featureScore fh n_bins alpha tol (fh.edges.getD 0 0)
      = Real.logb 2 ((fh.dens.getD 0 0 + alpha : ℚ) : ℝ) ∧
    featureScore fh n_bins alpha tol (fh.edges.getD n_bins 0)
      = Real.logb 2 ((fh.dens.getD (n_bins - 1) 0 + alpha : ℚ) : ℝ) := by
  have hmono' : fh.edges.Chain' (· ≤ ·) := chain_lt_le hmono
  constructor
  · apply featureScore_below_within hD hn hmono' (le_refl _)
    have hw : fh.edges.getD 0 0 ≤ fh.edges.getD 1 0 :=
      chain_le_getD hmono' (by omega) (by omega)
    have : (0 : ℚ) ≤ (fh.edges.getD 1 0 - fh.edges.getD 0 0) * tol :=
      mul_nonneg (by linarith) htol
    linarith
  · have hk : n_bins - 1 + 1 = n_bins := by omega
    have hv1 : fh.edges.getD (n_bins - 1) 0 < fh.edges.getD n_bins 0 :=
      chain_lt_getD hmono (by omega) (by omega)
    have := @featureScore_in_bin fh n_bins (n_bins - 1) alpha tol
      (fh.edges.getD n_bins 0) hE hD (by omega) hmono' hv1 (by rw [hk])
    simpa [hk] using this

theorem hbos_extremum_scores_boundary_bin_witness :
    (exFH.edges.length = 2 + 1 ∧ exFH.dens.length = 2 ∧ 1 ≤ 2 ∧
      exFH.edges.Chain' (· < ·) ∧ (0 : ℚ) ≤ 1/2) ∧
    (featureScore exFH 2 (1/10) (1/2) (exFH.edges.getD 0 0)
      = Real.logb 2 ((exFH.dens.getD 0 0 + 1/10 : ℚ) : ℝ) ∧
    featureScore exFH 2 (1/10) (1/2) (exFH.edges.getD 2 0)
      = Real.logb 2 ((exFH.dens.getD (2 - 1) 0 + 1/10 : ℚ) : ℝ)) :=
  ⟨⟨by simp [exFH], by simp [exFH], by norm_num,
      by norm_num [exFH, List.chain'_cons], by norm_num⟩,
    hbos_extremum_scores_boundary_bin exFH 2 (1/10) (1/2)
      (by simp [exFH]) (by simp [exFH]) (by norm_num)
      (by norm_num [exFH, List.chain'_cons]) (by norm_num)⟩

/-! ## Claim C4: the tolerance comparison is non-strict at the boundary -/

/-- C4: with first-bin width `w = e[1] - e[0]`, a sample exactly at
`e[0] - w * tol` receives the first bin's log-density, while every sample
strictly below `e[0] - w * tol` receives the minimum log-density. -/
theorem hbos_tolerance_boundary (fh : FeatureHist) (n_bins : ℕ)
    (alpha tol : ℚ)
    (hE : fh.edges.length = n_bins + 1) (hD : fh.dens.length = n_bins)
    (hn : 1 ≤ n_bins) (hmono : fh.edges.Chain' (· ≤ ·)) (htol : 0 ≤ tol) :
    featureScore fh n_bins alpha tol
        (fh.edges.getD 0 0 - (fh.edges.getD 1 0 - fh.edges.getD 0 0) * tol)
      = Real.logb 2 ((fh.dens.getD 0 0 + alpha : ℚ) : ℝ) ∧
    ∀ v : ℚ,
      v < fh.edges.getD 0 0 - (fh.edges.getD 1 0 - fh.edges.getD 0 0) * tol →
      featureScore fh n_bins alpha tol v
        = npMin (outScoreList fh.dens alpha) := by
  have hw : fh.edges.getD 0 0 ≤ fh.edges.getD 1 0 :=
    chain_le_getD hmono (by omega) (by omega)
  have hwt : (0 : ℚ) ≤ (fh.edges.getD 1 0 - fh.edges.getD 0 0) * tol :=
    mul_nonneg (by linarith) htol
  constructor
  · exact featureScore_below_within hD hn hmono (by linarith) (by linarith)
  · intro v hv
    exact featureScore_below_beyond hmono (by linarith) (by linarith)

theorem hbos_tolerance_boundary_witness :
    (exFH.edges.length = 2 + 1 ∧ exFH.dens.length = 2 ∧ 1 ≤ 2 ∧
      exFH.edges.Chain' (· ≤ ·) ∧ (0 : ℚ) ≤ 1/2) ∧
    (featureScore exFH 2 (1/10) (1/2)
        (exFH.edges.getD 0 0 - (exFH.edges.getD 1 0 - exFH.edges.getD 0 0) * (1/2))
      = Real.logb 2 ((exFH.dens.getD 0 0 + 1/10 : ℚ) : ℝ) ∧
    ∀ v : ℚ,
      v < exFH.edges.getD 0 0 - (exFH.edges.getD 1 0 - exFH.edges.getD 0 0) * (1/2) →
      featureScore exFH 2 (1/10) (1/2) v
        = npMin (outScoreList exFH.dens (1/10))) :=
  ⟨⟨by simp [exFH], by simp [exFH], by norm_num,
      by norm_num [exFH, List.chain'_cons], by norm_num⟩,
    hbos_tolerance_boundary exFH 2 (1/10) (1/2)
      (by simp [exFH]) (by simp [exFH]) (by norm_num)
      (by norm_num [exFH, List.chain'_cons]) (by norm_num)⟩

/-! ## Claim C2: one end-of-pipeline inversion, additivity across features -/

/-- C2: for a two-feature sample the aggregate decision score is the single
end-of-pipeline inversion of the sum of the two per-feature sub-scores, each
of which is exactly the sub-score the kernel computes on its own
single-feature model; the inversion is never applied per feature. -/
theorem hbos_single_inversion_additivity (f0 f1 : FeatureHist) (n_bins : ℕ)
    (alpha tol v0 v1 : ℚ) :
    decisionScores n_bins alpha tol [f0, f1] [[v0, v1]]
      = [-(((calculate_outlier_scores [[v0]] [f0] n_bins alpha tol).headD
            []).headD 0
          + ((calculate_outlier_scores [[v1]] [f1] n_bins alpha tol).headD
            []).headD 0)] := by
  simp [decisionScores, calculate_outlier_scores, invert_order]

/-! ## Claim C9: scoring is deterministic -/

/-- C9: the scoring computation is a pure function of the fitted model, the
configuration and the input matrix; two invocations on equal inputs return
identical score vectors. -/
theorem hbos_scoring_deterministic (model : List FeatureHist) (n_bins : ℕ)
    (alpha tol : ℚ) (X1 X2 : List (List ℚ)) (h : X1 = X2) :
    decision_function model n_bins alpha tol X1
      = decision_function model n_bins alpha tol X2 := by
  rw [h]

theorem hbos_scoring_deterministic_witness :
    ([[(0 : ℚ)]] = [[(0 : ℚ)]]) ∧
    decision_function [exFH] 2 (1/10) (1/2) [[0]]
      = decision_function [exFH] 2 (1/10) (1/2) [[0]] :=
  ⟨rfl, hbos_scoring_deterministic [exFH] 2 (1/10) (1/2) [[0]] [[0]] rfl⟩

/-! ## Claim C10: every sub-score is one of the per-bin log-densities -/

lemma featureScore_mem {fh : FeatureHist} {n_bins : ℕ} {alpha tol v : ℚ}
    (hE : fh.edges.length = n_bins + 1) (hD : fh.dens.length = n_bins)
    (hn : 1 ≤ n_bins) :
    featureScore fh n_bins alpha tol v ∈ outScoreList fh.dens alpha := by
  have hlen : (outScoreList fh.dens alpha).length = n_bins := by
    simp [outScoreList, hD]
  have hne : outScoreList fh.dens alpha ≠ [] := by
    intro h
    rw [h] at hlen
    simp at hlen
    omega
  have hmem : ∀ k, k < n_bins →
      (outScoreList fh.dens alpha).getD k 0 ∈ outScoreList fh.dens alpha := by
    intro k hk
    rw [List.getD_eq_getElem _ _ (by omega)]
    exact List.getElem_mem _
  have hidx := digitizeRight_le_length fh.edges v
  rw [hE] at hidx
  simp only [featureScore]
  split_ifs with h1 h2 h3 h4
  · exact hmem 0 (by omega)
  · exact npMin_mem hne
  · exact hmem (n_bins - 1) (by omega)
  · exact npMin_mem hne
  · exact hmem (digitizeRight fh.edges v - 1) (by omega)

/-- C10: every per-feature sub-score is an element of the feature's list of
per-bin log-densities `log2(h[k] + alpha)`, and hence lies between the
minimum and the maximum per-bin log-density, however far outside the
training range the sample value falls. -/
theorem hbos_subscore_in_log_density_set (fh : FeatureHist) (n_bins : ℕ)
    (alpha tol v : ℚ)
    (hE : fh.edges.length = n_bins + 1) (hD : fh.dens.length = n_bins)
    (hn : 1 ≤ n_bins) :
    (∃ k, k < n_bins ∧ featureScore fh n_bins alpha tol v
      = Real.logb 2 ((fh.dens.getD k 0 + alpha : ℚ) : ℝ)) ∧
    npMin (outScoreList fh.dens alpha) ≤ featureScore fh n_bins alpha tol v ∧
    featureScore fh n_bins alpha tol v
      ≤ npMax (outScoreList fh.dens alpha) := by
  have hmem := @featureScore_mem fh n_bins alpha tol v hE hD hn
  refine ⟨?_, npMin_le_of_mem hmem, le_npMax_of_mem hmem⟩
  rcases List.mem_iff_getElem.mp hmem with ⟨k, hk, hget⟩
  have hlen : (outScoreList fh.dens alpha).length = n_bins := by
    simp [outScoreList, hD]
  refine ⟨k, by omega, ?_⟩
  rw [← hget, ← List.getD_eq_getElem _ 0 hk]
  exact getD_map_logb fh.dens alpha (by omega)

theorem hbos_subscore_in_log_density_set_witness :
    (exFH.edges.length = 2 + 1 ∧ exFH.dens.length = 2 ∧ 1 ≤ 2) ∧
    ((∃ k, k < 2 ∧ featureScore exFH 2 (1/10) (1/2) 50
      = Real.logb 2 ((exFH.dens.getD k 0 + 1/10 : ℚ) : ℝ)) ∧
    npMin (outScoreList exFH.dens (1/10))
      ≤ featureScore exFH 2 (1/10) (1/2) 50 ∧
    featureScore exFH 2 (1/10) (1/2) 50
      ≤ npMax (outScoreList exFH.dens (1/10))) :=
  ⟨⟨by simp [exFH], by simp [exFH], by norm_num⟩,
    hbos_subscore_in_log_density_set exFH 2 (1/10) (1/2) 50
      (by simp [exFH]) (by simp [exFH]) (by norm_num)⟩

/-! ## Claim C5: what construction validates -/

/-- C5 counterexample: constructing an `HBOS` with the non-positive bin
count `n_bins = 0` (and valid `alpha`, `tol`) succeeds — no error is
detected at configuration time, contradicting the claim. -/
theorem hbos_init_accepts_nonpositive_nbins :
    ((0 : ℤ) ≤ 0) ∧ (hbos_init 0 (1/10) (1/2)).isSome = true := by
  refine ⟨le_refl 0, ?_⟩
  norm_num [hbos_init, check_parameter]

/-- C5 amended: construction validates exactly that `alpha` and `tol` lie in
the open interval `(0, 1)`, before any histogram work; `n_bins` is stored
unvalidated (a non-positive value only fails later, inside `fit`). -/
theorem hbos_init_validates_alpha_tol (n_bins : ℤ) (alpha tol : ℚ) :
    (hbos_init n_bins alpha tol).isSome = true
      ↔ (0 < alpha ∧ alpha < 1) ∧ (0 < tol ∧ tol < 1) := by
  unfold hbos_init check_parameter
  split_ifs with h
  · simp only [Option.isSome_some, true_iff]
    simpa using h
  · simp only [Option.isSome_none, Bool.false_eq_true, false_iff]
    simpa using h

/-! ## Claim C6: no feature-count validation at scoring time -/

/-- C6 counterexample: a model fitted with two features scores a one-feature
input without any rejection — a full score vector is produced, contradicting
the claim that the call fails with no score vector. -/
theorem hbos_feature_mismatch_scores_anyway :
    [exFH, exFH].length = 2 ∧ ([[(0 : ℚ)]].headD []).length = 1 ∧
    (decision_function [exFH, exFH] 2 (1/10) (1/2) [[0]]).isSome = true := by
  refine ⟨rfl, rfl, ?_⟩
  simp [decision_function, check_array]

/-- C6 amended: `decision_function` validates only the input matrix itself
(nonempty and rectangular); it never compares the input's feature count with
the fitted model's, and for any accepted input — including one with fewer
features than the fitted model, which is scored against the leading feature
histograms — it returns a full score vector with one entry per sample. -/
theorem hbos_no_feature_count_validation (model : List FeatureHist)
    (n_bins : ℕ) (alpha tol : ℚ) (X : List (List ℚ))
    (h : check_array X = true)
    (hcols : (X.headD []).length ≤ model.length) :
    decision_function model n_bins alpha tol X
      = some (decisionScores n_bins alpha tol model X)
    ∧ (decisionScores n_bins alpha tol model X).length = X.length := by
  constructor
  · simp [decision_function, h]
  · simp [decisionScores, invert_order, calculate_outlier_scores]

theorem hbos_no_feature_count_validation_witness :
    (check_array [[(0 : ℚ)]] = true ∧
      ([[(0 : ℚ)]].headD []).length ≤ [exFH, exFH].length) ∧
    (decision_function [exFH, exFH] 2 (1/10) (1/2) [[0]]
      = some (decisionScores 2 (1/10) (1/2) [exFH, exFH] [[0]])
    ∧ (decisionScores 2 (1/10) (1/2) [exFH, exFH] [[0]]).length
      = [[(0 : ℚ)]].length) :=
  ⟨⟨by simp [check_array], by simp⟩,
    hbos_no_feature_count_validation [exFH, exFH] 2 (1/10) (1/2) [[0]]
      (by simp [check_array]) (by simp)⟩

/-! ## Claim C7: the density histogram integrates to one -/

lemma listMin_le_listMax {l : List ℚ} (h : l ≠ []) : listMin l ≤ listMax l := by
  match l, h with
  | x :: xs, _ =>
    calc listMin (x :: xs) = xs.foldl min x := rfl
    _ ≤ x := foldl_min_le_init xs x
    _ ≤ xs.foldl max x := init_le_foldl_max xs x
    _ = listMax (x :: xs) := rfl

lemma sum_map_div (l : List ℕ) (f : ℕ → ℚ) (d : ℚ) :
    (l.map (fun k => f k / d)).sum = (l.map f).sum / d := by
  induction l with
  | nil => simp
  | cons x t ih => simp [ih, add_div]

lemma sum_map_add_nat (l : List ℕ) (f g : ℕ → ℕ) :
    (l.map (fun k => f k + g k)).sum = (l.map f).sum + (l.map g).sum := by
  induction l with
  | nil => simp
  | cons x t ih => simp [ih]; omega

lemma sum_indicator_ge (a : ℕ) :
    ∀ n : ℕ, n ≤ a →
      ((List.range n).map (fun k => if a = k then (1 : ℕ) else 0)).sum = 0 := by
  intro n
  induction n with
  | zero => intro _; simp
  | succ m ih =>
    intro hma
    rw [List.range_succ, List.map_append, List.sum_append, ih (by omega)]
    simp
    omega

lemma sum_indicator_lt (a : ℕ) :
    ∀ n : ℕ, a < n →
      ((List.range n).map (fun k => if a = k then (1 : ℕ) else 0)).sum = 1 := by
  intro n
  induction n with
  | zero => intro h; omega
  | succ m ih =>
    intro hma
    rw [List.range_succ, List.map_append, List.sum_append]
    rcases Nat.lt_or_ge a m with ham | ham
    · have hne : a ≠ m := by omega
      rw [ih ham]
      simp [hne]
    · have ha : a = m := by omega
      rw [sum_indicator_ge a m (by omega)]
      simp [ha]

lemma sum_countP_eq_length (f : ℚ → ℕ) (n : ℕ) :
    ∀ l : List ℚ, (∀ v ∈ l, f v < n) →
      ((List.range n).map
        (fun k => l.countP (fun v => decide (f v = k)))).sum = l.length := by
  intro l
  induction l with
  | nil => intro _; simp
  | cons x t ih =>
    intro hall
    have hco : ∀ k : ℕ, (x :: t).countP (fun v => decide (f v = k))
        = t.countP (fun v => decide (f v = k))
          + (if f x = k then 1 else 0) := by
      intro k
      rw [List.countP_cons]
      simp
    calc ((List.range n).map
          (fun k => (x :: t).countP (fun v => decide (f v = k)))).sum
        = ((List.range n).map
          (fun k => t.countP (fun v => decide (f v = k))
            + (if f x = k then 1 else 0))).sum := by
          exact congrArg List.sum (List.map_congr_left (fun k _ => hco k))
      _ = ((List.range n).map
          (fun k => t.countP (fun v => decide (f v = k)))).sum
          + ((List.range n).map (fun k => if f x = k then 1 else 0)).sum :=
          sum_map_add_nat _ _ _
      _ = t.length + 1 := by
          rw [ih (fun v hv => hall v (List.mem_cons_of_mem x hv)),
            sum_indicator_lt (f x) n (hall x (List.mem_cons_self x t))]
      _ = (x :: t).length := by simp

lemma diffs_map_range :
    ∀ (n : ℕ) (f : ℕ → ℚ),
      diffs ((List.range (n + 1)).map f)
        = (List.range n).map (fun k => f (k + 1) - f k) := by
  intro n
  induction n with
  | zero => intro f; rfl
  | succ m ih =>
    intro f
    rw [List.range_succ_eq_map (m + 1), List.map_cons, List.map_map]
    have hmm : (List.range (m + 1)).map (f ∘ Nat.succ)
        = f 1 :: (List.range m).map (f ∘ Nat.succ ∘ Nat.succ) := by
      rw [List.range_succ_eq_map m, List.map_cons, List.map_map]
      rfl
    rw [hmm]
    show (f 1 - f 0)
        :: diffs (f 1 :: (List.range m).map (f ∘ Nat.succ ∘ Nat.succ))
      = (List.range (m + 1)).map (fun k => f (k + 1) - f k)
    have hih := ih (f ∘ Nat.succ)
    rw [hmm] at hih
    rw [hih, List.range_succ_eq_map m, List.map_cons, List.map_map]
    rfl

lemma histW_pos {col : List ℚ} (hcol : col ≠ []) {n_bins : ℕ}
    (hnb : n_bins ≠ 0) : 0 < histW col n_bins := by
  have hn : (0 : ℚ) < (n_bins : ℚ) := by
    exact_mod_cast Nat.pos_of_ne_zero hnb
  unfold histW histHi histLo
  rcases eq_or_ne (listMin col) (listMax col) with heq | hne
  · rw [if_pos heq, if_pos heq, heq]
    have h1 : listMax col + 1/2 - (listMax col - 1/2) = 1 := by ring
    rw [h1]
    positivity
  · rw [if_neg hne, if_neg hne]
    have hle : listMin col ≤ listMax col := listMin_le_listMax hcol
    have hlt : listMin col < listMax col := lt_of_le_of_ne hle hne
    have h1 : (0 : ℚ) < listMax col - listMin col := by linarith
    positivity

lemma diffs_histEdges (col : List ℚ) (n_bins : ℕ) :
    diffs (histEdges col n_bins)
      = (List.range n_bins).map (fun _ => histW col n_bins) := by
  unfold histEdges
  rw [diffs_map_range]
  refine List.map_congr_left ?_
  intro k _
  push_cast
  ring

lemma histDens_integral {col : List ℚ} {n_bins : ℕ} (hcol : col ≠ [])
    (hnb : n_bins ≠ 0) :
    (((histDens col n_bins).zip (diffs (histEdges col n_bins))).map
      (fun p => p.1 * p.2)).sum = 1 := by
  have hwpos := histW_pos hcol hnb
  have hwne : histW col n_bins ≠ 0 := ne_of_gt hwpos
  have hlpos : (0 : ℚ) < (col.length : ℚ) := by
    exact_mod_cast List.length_pos.mpr hcol
  have hlne : (col.length : ℚ) ≠ 0 := ne_of_gt hlpos
  rw [diffs_histEdges]
  unfold histDens histCounts
  rw [List.map_map, List.zip_map', List.map_map]
  have hterm : ∀ k ∈ List.range n_bins,
      ((fun p : ℚ × ℚ => p.1 * p.2) ∘ fun k =>
        (((fun c : ℕ => (c : ℚ) / ((col.length : ℚ) * histW col n_bins)) ∘
          fun k => col.countP (fun v =>
            decide (binIndex (histLo col) (histW col n_bins) n_bins v = k))) k,
          histW col n_bins)) k
      = (fun j => ((col.countP (fun v =>
          decide (binIndex (histLo col) (histW col n_bins) n_bins v = j)) : ℚ))) k
        / (col.length : ℚ) := by
    intro k _
    show ((col.countP _ : ℕ) : ℚ) / ((col.length : ℚ) * histW col n_bins)
        * histW col n_bins = _
    field_simp
    ring
  rw [List.map_congr_left hterm, sum_map_div]
  have hsum : ((List.range n_bins).map
      (fun j => ((col.countP (fun v =>
        decide (binIndex (histLo col) (histW col n_bins) n_bins v = j)) : ℚ)))).sum
      = ((col.length : ℕ) : ℚ) := by
    have hnat := sum_countP_eq_length
      (binIndex (histLo col) (histW col n_bins) n_bins) n_bins col
      (fun v _ => by
        have h1 : binIndex (histLo col) (histW col n_bins) n_bins v
            ≤ n_bins - 1 := min_le_right _ _
        omega)
    calc ((List.range n_bins).map
        (fun j => ((col.countP (fun v =>
          decide (binIndex (histLo col) (histW col n_bins) n_bins v = j)) : ℚ)))).sum
        = (((List.range n_bins).map
          (fun j => col.countP (fun v =>
            decide (binIndex (histLo col) (histW col n_bins) n_bins v = j)))).map
            (fun c : ℕ => (c : ℚ))).sum := by rw [List.map_map]; rfl
      _ = (((List.range n_bins).map
          (fun j => col.countP (fun v =>
            decide (binIndex (histLo col) (histW col n_bins) n_bins v = j)))).sum
            : ℕ) := (Nat.cast_list_sum _).symm
      _ = ((col.length : ℕ) : ℚ) := by rw [hnat]
  rw [hsum]
  field_simp

lemma np_histogram_integral {col : List ℚ} {n_bins : ℕ}
    {dens edges : List ℚ}
    (h : np_histogram col n_bins = some (dens, edges)) :
    ((dens.zip (diffs edges)).map (fun p => p.1 * p.2)).sum = 1 := by
  by_cases hc : col = [] ∨ n_bins = 0
  · rw [np_histogram, if_pos hc] at h
    cases h
  · rw [np_histogram, if_neg hc] at h
    push_neg at hc
    have hok := Option.some.inj h
    have hdens : dens = histDens col n_bins :=
      ((Prod.mk.injEq _ _ _ _).mp hok).1.symm
    have hedges : edges = histEdges col n_bins :=
      ((Prod.mk.injEq _ _ _ _).mp hok).2.symm
    rw [hdens, hedges]
    exact histDens_integral hc.1 hc.2

lemma seqOption_mem {α : Type} :
    ∀ {opts : List (Option α)} {l : List α}, seqOption opts = some l →
      ∀ a ∈ l, some a ∈ opts := by
  intro opts
  induction opts with
  | nil =>
    intro l h a ha
    simp [seqOption] at h
    subst h
    cases ha
  | cons o t ih =>
    intro l h a ha
    rcases o with _ | x
    · simp [seqOption] at h
    · rw [seqOption] at h
      rcases Option.map_eq_some'.mp h with ⟨l', hl', rfl⟩
      rcases List.mem_cons.mp ha with rfl | ha'
      · exact List.mem_cons_self _ _
      · exact List.mem_cons_of_mem _ (ih hl' a ha')

lemma buildModel_mem {X : List (List ℚ)} {n_bins : ℕ}
    {model : List FeatureHist} (h : buildModel X n_bins = some model) :
    ∀ fh ∈ model, ∃ i,
      np_histogram (getCol X i) n_bins = some (fh.dens, fh.edges) := by
  intro fh hfh
  have hmem := seqOption_mem h fh hfh
  rcases List.mem_map.mp hmem with ⟨i, _, hi⟩
  rcases Option.map_eq_some'.mp hi with ⟨p, hp, hfp⟩
  refine ⟨i, ?_⟩
  rw [hp]
  have h1 : fh.dens = p.1 := by rw [← hfp]
  have h2 : fh.edges = p.2 := by rw [← hfp]
  rw [h1, h2]

/-- C7: every feature histogram of a successfully fitted model has densities
and edges whose products of height and width sum to 1 (exactly, in exact
arithmetic), hence within the claimed absolute tolerance `0.1`; `fit`
re-checks this per feature with `np.isclose(1, ., atol=0.1)` and refuses to
produce a model otherwise. -/
theorem hbos_density_integrates_to_one (n_bins : ℕ) (alpha tol : ℚ)
    (X : List (List ℚ)) (model : List FeatureHist)
    (hfit : (fit n_bins alpha tol X).map Prod.fst = some model) :
    ∀ fh ∈ model, integralSum fh = 1 ∧ |integralSum fh - 1| ≤ 1/10 := by
  unfold fit at hfit
  by_cases hca : check_array X = true
  · rw [if_pos hca] at hfit
    rcases hbm : buildModel X n_bins with _ | model'
    · rw [hbm] at hfit
      simp at hfit
    · rw [hbm] at hfit
      dsimp only at hfit
      by_cases hall : model'.all
          (fun fh => np_isclose (1/100000) (1/10) 1 (integralSum fh)) = true
      · rw [if_pos hall] at hfit
        simp at hfit
        subst hfit
        intro fh hmem
        rcases buildModel_mem hbm fh hmem with ⟨i, hnp⟩
        have h1 : integralSum fh = 1 := by
          unfold integralSum
          exact np_histogram_integral hnp
        refine ⟨h1, ?_⟩
        rw [h1]
        norm_num
      · rw [if_neg hall] at hfit
        simp at hfit
  · rw [if_neg hca] at hfit
    simp at hfit

/-! ## A concrete fit: two samples, one feature, two equal-density bins -/

/-- The feature histogram `fit` builds from the training column `[0, 1]`
with two bins: edges `[0, 1/2, 1]`, densities `[1, 1]` (a flat histogram). -/
def exFitFH : FeatureHist := ⟨[0, 1/2, 1], [1, 1]⟩

lemma listMin_pair : listMin [(0 : ℚ), 1] = 0 := by
  show min (0 : ℚ) 1 = 0
  norm_num

lemma listMax_pair : listMax [(0 : ℚ), 1] = 1 := by
  show max (0 : ℚ) 1 = 1
  norm_num

lemma histLo_pair : histLo [(0 : ℚ), 1] = 0 := by
  rw [histLo, if_neg, listMin_pair]
  rw [listMin_pair, listMax_pair]
  norm_num

lemma histHi_pair : histHi [(0 : ℚ), 1] = 1 := by
  rw [histHi, if_neg, listMax_pair]
  rw [listMin_pair, listMax_pair]
  norm_num

lemma histW_pair : histW [(0 : ℚ), 1] 2 = 1/2 := by
  rw [histW, histLo_pair, histHi_pair]
  norm_num

lemma np_histogram_pair :
    np_histogram [(0 : ℚ), 1] 2 = some ([1, 1], [0, 1/2, 1]) := by
  have hedges : histEdges [(0 : ℚ), 1] 2 = [0, 1/2, 1] := by
    rw [histEdges, histLo_pair, histW_pair]
    show [(0 : ℚ) + 0 * (1/2), 0 + 1 * (1/2), 0 + 2 * (1/2)] = [0, 1/2, 1]
    norm_num
  have hcounts : histCounts [(0 : ℚ), 1] 2 = [1, 1] := by
    rw [histCounts, histLo_pair, histW_pair]
    show [[(0 : ℚ), 1].countP (fun v => decide (binIndex 0 (1/2) 2 v = 0)),
      [(0 : ℚ), 1].countP (fun v => decide (binIndex 0 (1/2) 2 v = 1))] = [1, 1]
    have h00 : binIndex (0 : ℚ) (1/2) 2 0 = 0 := by norm_num [binIndex]
    have h11 : binIndex (0 : ℚ) (1/2) 2 1 = 1 := by norm_num [binIndex]
    simp only [List.countP_cons, List.countP_nil, decide_eq_true_eq]
    rw [h00, h11]
    norm_num
  have hdens : histDens [(0 : ℚ), 1] 2 = [1, 1] := by
    rw [histDens, hcounts, histW_pair]
    show [((1 : ℕ) : ℚ) / (2 * (1/2)), ((1 : ℕ) : ℚ) / (2 * (1/2))] = [1, 1]
    norm_num
  rw [np_histogram, if_neg (by simp), hdens, hedges]

lemma buildModel_pair : buildModel [[(0 : ℚ)], [1]] 2 = some [exFitFH] := by
  have hcol : getCol [[(0 : ℚ)], [1]] 0 = [0, 1] := by
    simp [getCol]
  rw [buildModel]
  show seqOption ((List.range 1).map
    (fun i => (np_histogram (getCol [[(0 : ℚ)], [1]] i) 2).map
      (fun p => FeatureHist.mk p.2 p.1))) = some [exFitFH]
  rw [show List.range 1 = [0] from rfl, List.map_cons, List.map_nil,
    hcol, np_histogram_pair]
  rfl

lemma integralSum_exFitFH : integralSum exFitFH = 1 := by
  rw [integralSum]
  show (1 : ℚ) * (1/2 - 0) + (1 * (1 - 1/2) + 0) = 1
  norm_num

/-- `fit` on the training matrix `[[0], [1]]` with two bins produces the
flat model `[exFitFH]`. -/
lemma fit_pair_model :
    (fit 2 (1/10) (1/2) [[(0 : ℚ)], [1]]).map Prod.fst = some [exFitFH] := by
  have hca : check_array [[(0 : ℚ)], [1]] = true := by
    simp [check_array]
  have hall : ([exFitFH].all
      (fun fh => np_isclose (1/100000) (1/10) 1 (integralSum fh))) = true := by
    norm_num [List.all, integralSum_exFitFH, np_isclose]
  rw [fit, if_pos hca, buildModel_pair]
  dsimp only
  rw [if_pos hall]
  rfl

/-- C7: witness at the concrete fit above. -/
theorem hbos_density_integrates_to_one_witness :
    ((fit 2 (1/10) (1/2) [[(0 : ℚ)], [1]]).map Prod.fst = some [exFitFH]) ∧
    ∀ fh ∈ [exFitFH], integralSum fh = 1 ∧ |integralSum fh - 1| ≤ 1/10 :=
  ⟨fit_pair_model,
    hbos_density_integrates_to_one 2 (1/10) (1/2) [[(0 : ℚ)], [1]] [exFitFH]
      fit_pair_model⟩

/-! ## Claim C8: orientation of the aggregate score -/

lemma sum_le_sum_pointwise :
    ∀ l1 l2 : List ℝ, l1.length = l2.length →
      (∀ i, i < l1.length → l1.getD i 0 ≤ l2.getD i 0) →
      l1.sum ≤ l2.sum := by
  intro l1
  induction l1 with
  | nil =>
    intro l2 hlen _
    have : l2 = [] := List.length_eq_zero.mp hlen.symm
    subst this
    exact le_refl _
  | cons x t ih =>
    intro l2 hlen hle
    match l2, hlen with
    | y :: t2, hlen =>
      have h0 : x ≤ y := by simpa using hle 0 (by simp)
      have ht : t.sum ≤ t2.sum := by
        refine ih t2 (by simpa using hlen) ?_
        intro i hi
        simpa using hle (i + 1) (by simpa using hi)
      simp only [List.sum_cons]
      exact add_le_add h0 ht

lemma sum_lt_sum_pointwise :
    ∀ l1 l2 : List ℝ, l1.length = l2.length →
      (∀ i, i < l1.length → l1.getD i 0 ≤ l2.getD i 0) →
      (∃ i, i < l1.length ∧ l1.getD i 0 < l2.getD i 0) →
      l1.sum < l2.sum := by
  intro l1
  induction l1 with
  | nil =>
    intro l2 _ _ hex
    rcases hex with ⟨i, hi, _⟩
    simp at hi
  | cons x t ih =>
    intro l2 hlen hle hex
    match l2, hlen with
    | y :: t2, hlen =>
      have h0 : x ≤ y := by simpa using hle 0 (by simp)
      have htle : t.sum ≤ t2.sum := by
        refine sum_le_sum_pointwise t t2 (by simpa using hlen) ?_
        intro i hi
        simpa using hle (i + 1) (by simpa using hi)
      rcases hex with ⟨i, hi, hstrict⟩
      match i with
      | 0 =>
        have hxy : x < y := by simpa using hstrict
        simp only [List.sum_cons]
        exact add_lt_add_of_lt_of_le hxy htle
      | i + 1 =>
        have htlt : t.sum < t2.sum := by
          refine ih t2 (by simpa using hlen) ?_ ?_
          · intro j hj
            simpa using hle (j + 1) (by simpa using hj)
          · exact ⟨i, by simpa using hi, by simpa using hstrict⟩
        simp only [List.sum_cons]
        exact add_lt_add_of_le_of_lt h0 htlt

lemma zip_map_getD (row : List ℚ) (model : List FeatureHist)
    (n_bins : ℕ) (alpha tol : ℚ) {i : ℕ}
    (hir : i < row.length) (him : i < model.length) :
    ((row.zip model).map
      (fun p => featureScore p.2 n_bins alpha tol p.1)).getD i 0
      = featureScore (model.getD i ⟨[], []⟩) n_bins alpha tol
          (row.getD i 0) := by
  have hiz : i < (row.zip model).length := by
    rw [List.length_zip]
    omega
  rw [List.getD_eq_getElem _ _ (by simpa using hiz), List.getElem_map,
    List.getElem_zip, List.getD_eq_getElem _ _ hir,
    List.getD_eq_getElem _ _ him]

/-- The raw per-feature sub-score of a far-outside value never exceeds that
of a value inside a maximal-density bin; it is strictly below whenever the
feature's densities are not all equal. -/
lemma featureScore_out_le_in {fh : FeatureHist} {n_bins : ℕ}
    {alpha tol v1 v2 : ℚ}
    (hE : fh.edges.length = n_bins + 1) (hD : fh.dens.length = n_bins)
    (hn : 1 ≤ n_bins) (hmono : fh.edges.Chain' (· < ·))
    (hdnn : ∀ d ∈ fh.dens, 0 ≤ d) (halpha : 0 < alpha)
    (hin : insideTopBin fh n_bins v1) (hout : farOutside fh n_bins tol v2) :
    featureScore fh n_bins alpha tol v2
      ≤ featureScore fh n_bins alpha tol v1 ∧
    (∀ j j', j < n_bins → j' < n_bins →
      fh.dens.getD j 0 < fh.dens.getD j' 0 →
      featureScore fh n_bins alpha tol v2
        < featureScore fh n_bins alpha tol v1) := by
  have hmono' : fh.edges.Chain' (· ≤ ·) := chain_lt_le hmono
  obtain ⟨k, hk, hka, hkb, hmax⟩ := hin
  have hfs1 : featureScore fh n_bins alpha tol v1
      = Real.logb 2 ((fh.dens.getD k 0 + alpha : ℚ) : ℝ) :=
    featureScore_in_bin hE hD hk hmono' hka (le_of_lt hkb)
  have hfs2 : featureScore fh n_bins alpha tol v2
      = npMin (outScoreList fh.dens alpha) := by
    rcases hout with ⟨hv, hc⟩ | ⟨hv, hc⟩
    · exact featureScore_below_beyond hmono' (le_of_lt hv) hc
    · exact featureScore_above_beyond hE hmono' hv hc
  have hgetD : ∀ j, j < n_bins →
      (outScoreList fh.dens alpha).getD j 0
        = Real.logb 2 ((fh.dens.getD j 0 + alpha : ℚ) : ℝ) := by
    intro j hj
    exact getD_map_logb fh.dens alpha (by omega)
  have hmemk : (outScoreList fh.dens alpha).getD k 0
      ∈ outScoreList fh.dens alpha := by
    have : k < (outScoreList fh.dens alpha).length := by
      simp [outScoreList, hD]
      omega
    rw [List.getD_eq_getElem _ _ this]
    exact List.getElem_mem _
  constructor
  · rw [hfs1, hfs2, ← hgetD k hk]
    exact npMin_le_of_mem hmemk
  · intro j j' hj hj' hjj
    have hjk : fh.dens.getD j 0 < fh.dens.getD k 0 :=
      lt_of_lt_of_le hjj (hmax j' hj')
    have hdj : (0 : ℚ) ≤ fh.dens.getD j 0 := by
      apply hdnn
      rw [List.getD_eq_getElem _ _ (by omega)]
      exact List.getElem_mem _
    have hlt : Real.logb 2 ((fh.dens.getD j 0 + alpha : ℚ) : ℝ)
        < Real.logb 2 ((fh.dens.getD k 0 + alpha : ℚ) : ℝ) := by
      apply Real.logb_lt_logb (by norm_num)
      · push_cast
        have : (0 : ℝ) < (alpha : ℝ) := by exact_mod_cast halpha
        have h2 : (0 : ℝ) ≤ ((fh.dens.getD j 0 : ℚ) : ℝ) := by
          exact_mod_cast hdj
        linarith
      · exact_mod_cast (by linarith : fh.dens.getD j 0 + alpha
          < fh.dens.getD k 0 + alpha)
    have hmemj : (outScoreList fh.dens alpha).getD j 0
        ∈ outScoreList fh.dens alpha := by
      have : j < (outScoreList fh.dens alpha).length := by
        simp [outScoreList, hD]
        omega
      rw [List.getD_eq_getElem _ _ this]
      exact List.getElem_mem _
    calc featureScore fh n_bins alpha tol v2
        = npMin (outScoreList fh.dens alpha) := hfs2
      _ ≤ (outScoreList fh.dens alpha).getD j 0 := npMin_le_of_mem hmemj
      _ = Real.logb 2 ((fh.dens.getD j 0 + alpha : ℚ) : ℝ) := hgetD j hj
      _ < Real.logb 2 ((fh.dens.getD k 0 + alpha : ℚ) : ℝ) := hlt
      _ = featureScore fh n_bins alpha tol v1 := hfs1.symm

/-- A fitted model shape: per feature, `n_bins + 1` strictly increasing
edges, `n_bins` nonnegative densities. -/
def modelWF (model : List FeatureHist) (n_bins : ℕ) : Prop :=
  ∀ fh ∈ model, fh.edges.length = n_bins + 1 ∧ fh.dens.length = n_bins ∧
    fh.edges.Chain' (· < ·) ∧ ∀ d ∈ fh.dens, 0 ≤ d

/-- C8 amended: with one sample strictly inside a maximal-density bin of
every feature and the other beyond the tolerance slack outside every
feature's range, the first aggregate (inverted) score is at most the second;
it is strictly lower as soon as at least one feature has two bins of
different density (with all bins of equal density the two scores coincide,
as the counterexample shows). -/
theorem hbos_orientation (model : List FeatureHist) (n_bins : ℕ)
    (alpha tol : ℚ) (row1 row2 : List ℚ)
    (hwf : modelWF model n_bins) (hn : 1 ≤ n_bins) (halpha : 0 < alpha)
    (hlen1 : row1.length = model.length)
    (hlen2 : row2.length = model.length)
    (hin : ∀ i, i < model.length →
      insideTopBin (model.getD i ⟨[], []⟩) n_bins (row1.getD i 0))
    (hout : ∀ i, i < model.length →
      farOutside (model.getD i ⟨[], []⟩) n_bins tol (row2.getD i 0)) :
    (decisionScores n_bins alpha tol model [row1]).headD 0
      ≤ (decisionScores n_bins alpha tol model [row2]).headD 0 ∧
    ((∃ i, i < model.length ∧ ∃ j j', j < n_bins ∧ j' < n_bins ∧
        (model.getD i ⟨[], []⟩).dens.getD j 0
          < (model.getD i ⟨[], []⟩).dens.getD j' 0) →
      (decisionScores n_bins alpha tol model [row1]).headD 0
        < (decisionScores n_bins alpha tol model [row2]).headD 0) := by
  have hwf' : ∀ i, i < model.length →
      (model.getD i ⟨[], []⟩).edges.length = n_bins + 1 ∧
      (model.getD i ⟨[], []⟩).dens.length = n_bins ∧
      (model.getD i ⟨[], []⟩).edges.Chain' (· < ·) ∧
      ∀ d ∈ (model.getD i ⟨[], []⟩).dens, 0 ≤ d := by
    intro i hi
    apply hwf
    rw [List.getD_eq_getElem _ _ hi]
    exact List.getElem_mem _
  have hhead : ∀ row : List ℚ,
      (decisionScores n_bins alpha tol model [row]).headD 0
        = -(((row.zip model).map
            (fun p => featureScore p.2 n_bins alpha tol p.1)).sum) := by
    intro row
    simp [decisionScores, calculate_outlier_scores, invert_order]
  have hlen : ((row2.zip model).map
      (fun p => featureScore p.2 n_bins alpha tol p.1)).length
      = ((row1.zip model).map
        (fun p => featureScore p.2 n_bins alpha tol p.1)).length := by
    simp [List.length_zip, hlen1, hlen2]
  have hlen2' : ((row2.zip model).map
      (fun p => featureScore p.2 n_bins alpha tol p.1)).length
      = model.length := by
    simp [List.length_zip, hlen2]
  have hpt : ∀ i, i < model.length →
      featureScore (model.getD i ⟨[], []⟩) n_bins alpha tol (row2.getD i 0)
      ≤ featureScore (model.getD i ⟨[], []⟩) n_bins alpha tol
        (row1.getD i 0) := by
    intro i hi
    obtain ⟨hE, hD, hmono, hdnn⟩ := hwf' i hi
    exact (featureScore_out_le_in hE hD hn hmono hdnn halpha
      (hin i hi) (hout i hi)).1
  have hptD : ∀ i, i < ((row2.zip model).map
      (fun p => featureScore p.2 n_bins alpha tol p.1)).length →
      ((row2.zip model).map
        (fun p => featureScore p.2 n_bins alpha tol p.1)).getD i 0
      ≤ ((row1.zip model).map
        (fun p => featureScore p.2 n_bins alpha tol p.1)).getD i 0 := by
    intro i hi
    rw [hlen2'] at hi
    rw [zip_map_getD row2 model n_bins alpha tol (by omega) hi,
      zip_map_getD row1 model n_bins alpha tol (by omega) hi]
    exact hpt i hi
  constructor
  · rw [hhead row1, hhead row2, neg_le_neg_iff]
    exact sum_le_sum_pointwise _ _ hlen hptD
  · rintro ⟨i, hi, j, j', hj, hj', hjj⟩
    rw [hhead row1, hhead row2, neg_lt_neg_iff]
    refine sum_lt_sum_pointwise _ _ hlen hptD ⟨i, by omega, ?_⟩
    rw [zip_map_getD row2 model n_bins alpha tol (by omega) hi,
      zip_map_getD row1 model n_bins alpha tol (by omega) hi]
    obtain ⟨hE, hD, hmono, hdnn⟩ := hwf' i hi
    exact (featureScore_out_le_in hE hD hn hmono hdnn halpha
      (hin i hi) (hout i hi)).2 j j' hj hj' hjj

theorem hbos_orientation_witness :
    (modelWF [exFH] 2 ∧ 1 ≤ 2 ∧ (0 : ℚ) < 1/10 ∧
      [(1/2 : ℚ)].length = [exFH].length ∧
      [(10 : ℚ)].length = [exFH].length ∧
      (∀ i, i < [exFH].length →
        insideTopBin ([exFH].getD i ⟨[], []⟩) 2 ([(1/2 : ℚ)].getD i 0)) ∧
      (∀ i, i < [exFH].length →
        farOutside ([exFH].getD i ⟨[], []⟩) 2 (1/2) ([(10 : ℚ)].getD i 0))) ∧
    ((decisionScores 2 (1/10) (1/2) [exFH] [[1/2]]).headD 0
      ≤ (decisionScores 2 (1/10) (1/2) [exFH] [[10]]).headD 0 ∧
    ((∃ i, i < [exFH].length ∧ ∃ j j', j < 2 ∧ j' < 2 ∧
        ([exFH].getD i ⟨[], []⟩).dens.getD j 0
          < ([exFH].getD i ⟨[], []⟩).dens.getD j' 0) →
      (decisionScores 2 (1/10) (1/2) [exFH] [[1/2]]).headD 0
        < (decisionScores 2 (1/10) (1/2) [exFH] [[10]]).headD 0)) := by
  have hwf : modelWF [exFH] 2 := by
    intro fh hfh
    have : fh = exFH := by simpa using hfh
    subst this
    refine ⟨by simp [exFH], by simp [exFH],
      by norm_num [exFH, List.chain'_cons], ?_⟩
    intro d hd
    simp [exFH] at hd
    rcases hd with rfl | rfl <;> norm_num
  have hin : ∀ i, i < [exFH].length →
      insideTopBin ([exFH].getD i ⟨[], []⟩) 2 ([(1/2 : ℚ)].getD i 0) := by
    intro i hi
    have : i = 0 := by simpa using hi
    subst this
    refine ⟨0, by norm_num, by norm_num [exFH], by norm_num [exFH], ?_⟩
    intro j hj
    interval_cases j <;> norm_num [exFH]
  have hout : ∀ i, i < [exFH].length →
      farOutside ([exFH].getD i ⟨[], []⟩) 2 (1/2) ([(10 : ℚ)].getD i 0) := by
    intro i hi
    have : i = 0 := by simpa using hi
    subst this
    exact Or.inr ⟨by norm_num [exFH], by norm_num [exFH]⟩
  exact ⟨⟨hwf, by norm_num, by norm_num, by simp, by simp, hin, hout⟩,
    hbos_orientation [exFH] 2 (1/10) (1/2) [1/2] [10] hwf (by norm_num)
      (by norm_num) (by simp) (by simp) hin hout⟩

/-- C8 counterexample: on the flat fitted model `[exFitFH]` (all bins of
equal density), the sample `1/4` lies strictly inside a maximal-density bin
and the sample `10` lies beyond the tolerance slack outside the range, yet
the two aggregate scores are equal — the strict inequality the claim
demands fails. -/
theorem hbos_orientation_flat_counterexample :
    ((fit 2 (1/10) (1/2) [[(0 : ℚ)], [1]]).map Prod.fst = some [exFitFH]) ∧
    insideTopBin exFitFH 2 (1/4) ∧
    farOutside exFitFH 2 (1/2) 10 ∧
    (decisionScores 2 (1/10) (1/2) [exFitFH] [[1/4]]).headD 0
      = (decisionScores 2 (1/10) (1/2) [exFitFH] [[10]]).headD 0 ∧
    ¬((decisionScores 2 (1/10) (1/2) [exFitFH] [[1/4]]).headD 0
      < (decisionScores 2 (1/10) (1/2) [exFitFH] [[10]]).headD 0) := by
  have ha : outScoreList exFitFH.dens (1/10)
      = [Real.logb 2 ((1 + 1/10 : ℚ) : ℝ),
         Real.logb 2 ((1 + 1/10 : ℚ) : ℝ)] := by
    simp [outScoreList, exFitFH]
  have hmin : npMin (outScoreList exFitFH.dens (1/10))
      = Real.logb 2 ((1 + 1/10 : ℚ) : ℝ) := by
    rw [ha]
    show min _ _ = _
    rw [min_self]
  have hf1 : featureScore exFitFH 2 (1/10) (1/2) (1/4)
      = Real.logb 2 ((1 + 1/10 : ℚ) : ℝ) := by
    have h := @featureScore_in_bin exFitFH 2 0 (1/10) (1/2) (1/4)
      (by simp [exFitFH]) (by simp [exFitFH]) (by norm_num)
      (by norm_num [exFitFH, List.chain'_cons])
      (by norm_num [exFitFH]) (by norm_num [exFitFH])
    rw [show exFitFH.dens.getD 0 0 = 1 from rfl] at h
    exact h
  have hf2 : featureScore exFitFH 2 (1/10) (1/2) 10
      = Real.logb 2 ((1 + 1/10 : ℚ) : ℝ) := by
    have h := @featureScore_above_beyond exFitFH 2 (1/10) (1/2) 10
      (by simp [exFitFH]) (by norm_num [exFitFH, List.chain'_cons])
      (by norm_num [exFitFH]) (by norm_num [exFitFH])
    rw [h, hmin]
  have hds : ∀ v : ℚ,
      (decisionScores 2 (1/10) (1/2) [exFitFH] [[v]]).headD 0
        = -(featureScore exFitFH 2 (1/10) (1/2) v) := by
    intro v
    simp [decisionScores, calculate_outlier_scores, invert_order]
  have heq : (decisionScores 2 (1/10) (1/2) [exFitFH] [[1/4]]).headD 0
      = (decisionScores 2 (1/10) (1/2) [exFitFH] [[10]]).headD 0 := by
    rw [hds, hds, hf1, hf2]
  refine ⟨fit_pair_model, ?_, ?_, heq, ?_⟩
  · refine ⟨0, by norm_num, by norm_num [exFitFH], by norm_num [exFitFH], ?_⟩
    intro j hj
    interval_cases j <;> norm_num [exFitFH]
  · exact Or.inr ⟨by norm_num [exFitFH], by norm_num [exFitFH]⟩
  · rw [heq]
    exact lt_irrefl _

end HBOS
